import Mathlib

/-!
Verification of the WAV-Optimizer core (src/main.rs) against its
natural-language specification.  Samples are embedded as `Int` (the Rust
code is generic over signed integer sample types i16/i32); sample indices
and range endpoints are `Nat` (Rust `usize`; every subtraction performed
by the source is on values where the Rust subtraction cannot underflow in
the flows the claims concern, and Nat truncated subtraction mirrors the
release-mode behaviour of the one guarded corner case, noted inline).
Millisecond-to-sample conversion (`get_sample_len_from_ms`) is
floating-point in the source; the development is parameterised directly
by the resulting sample counts (`minLen`), as every claim is stated
relative to those counts.
-/

namespace WavOpt

/-- The source's non-silence test `*sample > deviation || *sample < -deviation`
(src/main.rs lines 106 and 184). -/
def loud (dev s : Int) : Bool :=
  decide (s > dev) || decide (s < -dev)

/-- The detector's silence test is the negation `!(…)` (line 184). -/
def isSilent (dev s : Int) : Bool :=
  !(loud dev s)

/-! ## Trailing-Silence Trimmer (process_wav, lines 97-129) -/

/-- `_last_non_zero`: fold over the enumerated channel; a loud sample at
index `i` overwrites the running value, starting from 0 (lines 100-112). -/
def lastNonZero (dev : Int) (channel : List Int) : Nat :=
  channel.enum.foldl (fun acc p => if loud dev p.2 then p.1 else acc) 0

/-- Lines 115-123: keep exactly the channels whose `lastNonZero` is not 0. -/
def keptChannels (dev : Int) (channels : List (List Int)) : List (List Int) :=
  (((channels.map (fun c => (c, lastNonZero dev c)))).filter
      (fun p => p.2 != 0)).map Prod.fst

/-- Lines 115-129: drop "empty" channels, then truncate every survivor to
`max_non_zero + 1` where the max ranges over all original channels.
(`non_zeroes.iter().max().unwrap()` panics only when there are zero input
channels; the claims all concern at least one channel, where
`foldl max 0` coincides with the source's `.max().unwrap()`.) -/
def trimChannels (dev : Int) (channels : List (List Int)) : List (List Int) :=
  let maxNonZero := (channels.map (lastNonZero dev)).foldl max 0
  (keptChannels dev channels).map (fun c => c.take (maxNonZero + 1))

/-! ## Cross-Channel Silence Merger (get_silence_ranges, lines 211-246) -/

/-- One iteration of the innermost loop (lines 232-233): given the mutable
base range `r` and another channel's range `q`, first
`if q.start ≥ r.start ∧ q.start ≤ r.end then r.start := q.start`, then
(with the possibly-updated start) `if q.end ≥ r.start ∧ q.end ≤ r.end then
r.end := q.end`; the Bool records `found_silence`. -/
def mergeStep (r q : Nat × Nat) : (Nat × Nat) × Bool :=
  let s0 := r.1
  let e0 := r.2
  let s1 := if q.1 ≥ s0 ∧ q.1 ≤ e0 then q.1 else s0
  let f1 := decide (q.1 ≥ s0 ∧ q.1 ≤ e0)
  let e1 := if q.2 ≥ s1 ∧ q.2 ≤ e0 then q.2 else e0
  let f2 := f1 || decide (q.2 ≥ s1 ∧ q.2 ≤ e0)
  ((s1, e1), f2)

/-- The loop over one channel's range list (lines 230-235), breaking at the
first range that set `found_silence`. -/
def scanVec (r : Nat × Nat) : List (Nat × Nat) → Nat × Nat
  | [] => r
  | q :: rest =>
    let step := mergeStep r q
    if step.2 then step.1 else scanVec step.1 rest

/-- Lines 229-236: fold one base range through every channel's list
(including the base channel's own list). -/
def mergeRange (vecs : List (List (Nat × Nat))) (r : Nat × Nat) : Nat × Nat :=
  vecs.foldl scanVec r

/-- `silence_ranges_per_channel.iter().max_by_key(|v| v.len())` (line 221).
Rust's `max_by_key` returns the LAST of several equal maxima, which the
fold with `≥` reproduces. -/
def maxByLen (vecs : List (List (Nat × Nat))) : Option (List (Nat × Nat)) :=
  vecs.foldl
    (fun acc v =>
      match acc with
      | none => some v
      | some m => if v.length ≥ m.length then some v else some m)
    none

/-- The cross-channel merge (lines 211-246): with fewer than two per-channel
lists the sole list (or nothing) is returned; otherwise the longest list is
taken as base and every base range is folded through all channel lists. -/
def mergeSilences (vecs : List (List (Nat × Nat))) : Option (List (Nat × Nat)) :=
  if vecs.length < 2 ∧ vecs.length > 0 then some (vecs.headD [])
  else if vecs.length ≤ 0 then none
  else
    match maxByLen vecs with
    | none => none
    | some base =>
      let v := base.map (mergeRange vecs)
      if v.length > 0 then some v else none

/-! ## Silence-Range Detector (get_silence_ranges, lines 178-207) -/

/-- The per-channel scan loop (lines 183-202), carrying the running index
`i`, the open range `(st, en)`, the `is_checking_silence` flag and the
accumulated output.  On leaving silence a range is pushed exactly when
`silence_end - silence_start >= silence_min_length_samples` (line 197). -/
def detLoop (dev : Int) (minLen : Nat) :
    List Int → Nat → Nat → Nat → Bool → List (Nat × Nat) → List (Nat × Nat)
  | [], _, _, _, _, acc => acc
  | x :: rest, i, st, en, checking, acc =>
    if isSilent dev x then
      if !checking then detLoop dev minLen rest (i+1) i i true acc
      else detLoop dev minLen rest (i+1) st i true acc
    else
      if checking then
        if minLen ≤ en - st then
          detLoop dev minLen rest (i+1) st en false (acc ++ [(st, en)])
        else detLoop dev minLen rest (i+1) st en false acc
      else detLoop dev minLen rest (i+1) st en false acc

/-- The detector's per-channel output, `silence_ranges_vec`. -/
def detectChannel (dev : Int) (minLen : Nat) (channel : List Int) : List (Nat × Nat) :=
  detLoop dev minLen channel 0 0 0 false []

/-- The same scan without the minimum-length check: it emits every silent
run that is closed by a following loud sample.  `detLoop` is proved equal
to filtering this list by the length check. -/
def runsLoop (dev : Int) : List Int → Nat → Nat → Nat → Bool → List (Nat × Nat)
  | [], _, _, _, _ => []
  | x :: rest, i, st, en, checking =>
    if isSilent dev x then
      if !checking then runsLoop dev rest (i+1) i i true
      else runsLoop dev rest (i+1) st i true
    else
      if checking then (st, en) :: runsLoop dev rest (i+1) st en false
      else runsLoop dev rest (i+1) st en false

/-! ## Output decision of save_new_wav (lines 368-379) -/

inductive SaveAction where
  | deleteInput : SaveAction
  | writeOutput : SaveAction
  | skip : SaveAction
deriving DecidableEq

/-- The branch structure of `save_new_wav` before any filesystem write:
`samples_per_channel = if channels.len() > 0 { channels[0].len() } else { 0 }`;
when it is 0 the function writes nothing and deletes the input file exactly
when `delete_empty` is set; otherwise it proceeds to write an output. -/
def saveAction (deleteEmpty : Bool) (channels : List (List Int)) : SaveAction :=
  if (channels.headD []).length = 0 then
    if deleteEmpty then .deleteInput else .skip
  else .writeOutput

/-! ## Helper lemmas -/

lemma getD_map_of_lt {α β : Type} (f : α → β) (l : List α) (i : Nat) (d : α)
    (h : i < l.length) : (l.map f).getD i (f d) = f (l.getD i d) := by
  induction l generalizing i with
  | nil => simp at h
  | cons x rest ih =>
    cases i with
    | zero => simp
    | succ j =>
      simp only [List.map_cons, List.getD_cons_succ]
      exact ih j (by simpa using h)

/-- The mutable base range only shrinks under one `mergeStep`, and stays
well-formed. -/
lemma mergeStep_shrink (r q : Nat × Nat) (h : r.1 ≤ r.2) :
    r.1 ≤ (mergeStep r q).1.1 ∧ (mergeStep r q).1.2 ≤ r.2 ∧
      (mergeStep r q).1.1 ≤ (mergeStep r q).1.2 := by
  unfold mergeStep
  simp only
  split_ifs with h1 h2 h2 <;> omega

lemma scanVec_shrink (l : List (Nat × Nat)) (r : Nat × Nat) (h : r.1 ≤ r.2) :
    r.1 ≤ (scanVec r l).1 ∧ (scanVec r l).2 ≤ r.2 ∧
      (scanVec r l).1 ≤ (scanVec r l).2 := by
  induction l generalizing r with
  | nil => exact ⟨le_refl _, le_refl _, h⟩
  | cons q rest ih =>
    have hs := mergeStep_shrink r q h
    simp only [scanVec]
    split
    · exact hs
    · have := ih (mergeStep r q).1 hs.2.2
      exact ⟨le_trans hs.1 this.1, le_trans this.2.1 hs.2.1, this.2.2⟩

lemma mergeRange_shrink (vecs : List (List (Nat × Nat))) (r : Nat × Nat)
    (h : r.1 ≤ r.2) :
    r.1 ≤ (mergeRange vecs r).1 ∧ (mergeRange vecs r).2 ≤ r.2 ∧
      (mergeRange vecs r).1 ≤ (mergeRange vecs r).2 := by
  induction vecs generalizing r with
  | nil => exact ⟨le_refl _, le_refl _, h⟩
  | cons v rest ih =>
    have hs := scanVec_shrink v r h
    have := ih (scanVec r v) hs.2.2
    exact ⟨le_trans hs.1 this.1, le_trans this.2.1 hs.2.1, this.2.2⟩

/-- Dropping "empty" channels is exactly filtering on `lastNonZero ≠ 0`. -/
lemma keptChannels_eq_filter (dev : Int) (channels : List (List Int)) :
    keptChannels dev channels =
      channels.filter (fun d => lastNonZero dev d != 0) := by
  induction channels with
  | nil => rfl
  | cons c rest ih =>
    simp only [keptChannels, List.map_cons, List.filter_cons] at *
    by_cases h : lastNonZero dev c != 0
    · simp only [h, if_pos] at *
      simpa using ih
    · simp only [h, if_neg] at *
      simpa using ih

lemma foldl_lastNonZero_silent (dev : Int) (el : List (Nat × Int)) (a : Nat)
    (h : ∀ p ∈ el, loud dev p.2 = false) :
    el.foldl (fun acc p => if loud dev p.2 then p.1 else acc) a = a := by
  induction el generalizing a with
  | nil => rfl
  | cons p rest ih =>
    have hp : loud dev p.2 = false := h p (List.mem_cons_self _ _)
    simp only [List.foldl_cons, hp, if_neg Bool.false_ne_true]
    exact ih a (fun q hq => h q (List.mem_cons_of_mem _ hq))

/-! ## Claims C1, C2, C3 -/

/-- C1 counterexample: with per-channel lists `[(10,50)]` and `[(15,60)]`
the merger does NOT produce the single range `(10,60)` claimed by the
spec (it produces `[(15,50)]`, see the amended theorem). -/
theorem C1_counterexample :
    mergeSilences [[(10,50)], [(15,60)]] ≠ some [(10,60)] := by decide

/-- C1 amended: given exactly two channels whose silence-range lists are
`[(10,50)]` and `[(15,60)]`, the tie among the two equally-long lists
resolves to the LAST encountered (`max_by_key` returns the last maximum),
so the second list `[(15,60)]` is the base, and the merged output is the
single range `(15,50)`: the overlapping range of the other channel pulls
the base start up to 15 and the base end down to 50. -/
theorem C1_amended :
    maxByLen [[(10,50)], [(15,60)]] = some [(15,60)] ∧
      mergeSilences [[(10,50)], [(15,60)]] = some [(15,50)] := by decide

/-- C2 counterexample: for input lists `[(10,50)]`, `[(15,60)]` the base is
`[(15,60)]` and the merged range is `(15,50)`, whose end 50 is strictly
below the base end 60 — merging does not satisfy `e' ≥ e`. -/
theorem C2_counterexample :
    maxByLen [[(10,50)], [(15,60)]] = some [(15,60)] ∧
      mergeSilences [[(10,50)], [(15,60)]] = some [(15,50)] ∧
      ¬ (60 : Nat) ≤ 50 := by decide

/-- C2 amended: for every input of two or more per-channel lists and every
well-formed range `(s,e)` of the selected base list, the corresponding
merged range `(s',e')` satisfies `s ≤ s'` and `e' ≤ e`: merging can only
shrink a base range towards overlapping ranges of other channels, never
expand it. -/
theorem C2_amended (vecs : List (List (Nat × Nat))) (base : List (Nat × Nat))
    (i : Nat) (h2 : 2 ≤ vecs.length) (hb : maxByLen vecs = some base)
    (hi : i < base.length)
    (hwf : (base.getD i (0,0)).1 ≤ (base.getD i (0,0)).2) :
    ∃ merged, mergeSilences vecs = some merged ∧
      (base.getD i (0,0)).1 ≤ (merged.getD i (0,0)).1 ∧
      (merged.getD i (0,0)).2 ≤ (base.getD i (0,0)).2 := by
  refine ⟨base.map (mergeRange vecs), ?_, ?_⟩
  · unfold mergeSilences
    rw [if_neg (by omega), if_neg (by omega), hb]
    simp only
    rw [if_pos (by simpa using Nat.lt_of_le_of_lt (Nat.zero_le i) hi)]
  · have hmap : (base.map (mergeRange vecs)).getD i (mergeRange vecs (0,0)) =
        mergeRange vecs (base.getD i (0,0)) := getD_map_of_lt _ _ _ _ hi
    have hsh := mergeRange_shrink vecs (base.getD i (0,0)) hwf
    constructor
    · calc (base.getD i (0,0)).1 ≤ (mergeRange vecs (base.getD i (0,0))).1 := hsh.1
        _ = ((base.map (mergeRange vecs)).getD i (mergeRange vecs (0,0))).1 := by rw [hmap]
        _ = ((base.map (mergeRange vecs)).getD i (0,0)).1 := by
            rw [List.getD_eq_getElem?_getD, List.getD_eq_getElem?_getD]
            have : i < (base.map (mergeRange vecs)).length := by simpa using hi
            simp [List.getElem?_eq_getElem this]
    · calc ((base.map (mergeRange vecs)).getD i (0,0)).2
          = ((base.map (mergeRange vecs)).getD i (mergeRange vecs (0,0))).2 := by
            rw [List.getD_eq_getElem?_getD, List.getD_eq_getElem?_getD]
            have : i < (base.map (mergeRange vecs)).length := by simpa using hi
            simp [List.getElem?_eq_getElem this]
        _ = (mergeRange vecs (base.getD i (0,0))).2 := by rw [hmap]
        _ ≤ (base.getD i (0,0)).2 := hsh.2.1

/-- C2 amended, witness at the concrete two-channel input. -/
theorem C2_amended_witness :
    ∃ merged, mergeSilences [[(10,50)], [(15,60)]] = some merged ∧
      (15 : Nat) ≤ (merged.getD 0 (0,0)).1 ∧ (merged.getD 0 (0,0)).2 ≤ 60 := by
  have h := C2_amended [[(10,50)], [(15,60)]] [(15,60)] 0 (by decide) (by decide)
    (by decide) (by decide)
  simpa using h

/-- C3 counterexample: the channel `[200, 0, 0]` with threshold 100 has its
only non-silent sample at index 0; its last-sound index is 0 and the code
DROPS it from the output set, contradicting the claim that it is kept. -/
theorem C3_counterexample :
    loud 100 200 = true ∧ lastNonZero 100 [200, 0, 0] = 0 ∧
      keptChannels 100 [[200, 0, 0]] = [] := by decide

/-- C3 amended: a channel whose sample at index 0 is non-silent and whose
other samples are all silent has last-sound index 0 and IS dropped; in
general a channel is dropped exactly when its last-sound index is 0,
regardless of whether the sample at index 0 is silent. -/
theorem C3_amended (dev : Int) (c : List Int) (hlen : 0 < c.length)
    (h0 : loud dev (c.headD 0) = true)
    (hrest : ∀ s ∈ c.tail, isSilent dev s = true) :
    lastNonZero dev c = 0 ∧ keptChannels dev [c] = [] ∧
      ∀ channels : List (List Int),
        keptChannels dev channels =
          channels.filter (fun d => lastNonZero dev d != 0) := by
  have hlnz : lastNonZero dev c = 0 := by
    obtain ⟨x, tl, rfl⟩ : ∃ x tl, c = x :: tl := by
      cases c with
      | nil => simp at hlen
      | cons x tl => exact ⟨x, tl, rfl⟩
    unfold lastNonZero
    have henum : (x :: tl).enum = (0, x) :: tl.enumFrom 1 := rfl
    rw [henum, List.foldl_cons]
    have hx : (if loud dev (0, x).2 then (0, x).1 else 0) = 0 := by
      split <;> rfl
    rw [hx]
    apply foldl_lastNonZero_silent
    intro p hp
    have hmem : p.2 ∈ tl := by
      have : p.2 ∈ (tl.enumFrom 1).map Prod.snd := List.mem_map_of_mem _ hp
      simpa using this
    have := hrest p.2 (by simpa using hmem)
    simpa [isSilent, Bool.not_eq_true'] using this
  refine ⟨hlnz, ?_, keptChannels_eq_filter dev⟩
  rw [keptChannels_eq_filter]
  simp [hlnz]

/-- C3 amended, witness: threshold 100, channel `[200, 0]`. -/
theorem C3_amended_witness :
    lastNonZero 100 [200, 0] = 0 ∧ keptChannels 100 [[200, 0]] = [] ∧
      ∀ channels : List (List Int),
        keptChannels 100 channels =
          channels.filter (fun d => lastNonZero 100 d != 0) :=
  C3_amended 100 [200, 0] (by decide) (by decide) (by decide)

/-! ## Detector lemmas -/

/-- The detector scan is the unfiltered run scan followed by the length
filter `minLen ≤ end - start`. -/
lemma detLoop_eq_filter (dev : Int) (minLen : Nat) (l : List Int) :
    ∀ (i st en : Nat) (checking : Bool) (acc : List (Nat × Nat)),
      detLoop dev minLen l i st en checking acc =
        acc ++ (runsLoop dev l i st en checking).filter
          (fun r => decide (minLen ≤ r.2 - r.1)) := by
  induction l with
  | nil => intro i st en checking acc; simp [detLoop, runsLoop]
  | cons x rest ih =>
    intro i st en checking acc
    by_cases hs : isSilent dev x <;> cases checking <;>
      by_cases hm : minLen ≤ en - st <;>
      simp [detLoop, runsLoop, hs, hm, ih]

/-- C5: for every input channel, threshold and minimum length, every range
in the Silence-Range Detector's per-channel output has length
`end - start + 1` at least `minLen`; no shorter range ever appears.  (The
code in fact guarantees the strictly stronger `end - start ≥ minLen`.) -/
theorem C5_detector_min_length (dev : Int) (minLen : Nat) (c : List Int)
    (r : Nat × Nat) (hr : r ∈ detectChannel dev minLen c) :
    minLen ≤ r.2 - r.1 + 1 := by
  unfold detectChannel at hr
  rw [detLoop_eq_filter] at hr
  simp only [List.nil_append, List.mem_filter, decide_eq_true_eq] at hr
  omega

/-- C5 witness: the run (1,2) survives with minLen 1 and obeys the bound. -/
theorem C5_detector_min_length_witness :
    (1, 2) ∈ detectChannel 100 1 [200, 0, 0, 200] ∧ (1 : Nat) ≤ 2 - 1 + 1 :=
  ⟨by decide, C5_detector_min_length 100 1 [200, 0, 0, 200] (1, 2) (by decide)⟩

/-- If the scan is mid-run and the next `m` samples of the remaining list
are silent followed by a loud sample, the scan emits the open run, whose
recorded end becomes the index of the last silent sample. -/
lemma runsLoop_open (dev : Int) (l : List Int) :
    ∀ (i st en m : Nat),
      (∀ t, t < m → isSilent dev (l.getD t 0) = true) →
      m < l.length →
      isSilent dev (l.getD m 0) = false →
      (st, if m = 0 then en else i + m - 1) ∈ runsLoop dev l i st en true := by
  induction l with
  | nil => intro i st en m _ hm _; simp at hm
  | cons x rest ih =>
    intro i st en m hsil hm hloud
    cases m with
    | zero =>
      have hx : isSilent dev x = false := by simpa using hloud
      simp only [runsLoop, hx, Bool.false_eq_true, if_false, if_pos rfl, ite_true]
      exact List.mem_cons_self _ _
    | succ m2 =>
      have hx : isSilent dev x = true := by
        simpa using hsil 0 (Nat.succ_pos _)
      simp only [runsLoop, hx, if_true, Bool.not_true, Bool.false_eq_true, if_false,
        ite_true, ite_false]
      have hrec := ih (i+1) st i m2
        (fun t ht => by simpa using hsil (t+1) (by omega))
        (by simp only [List.length_cons] at hm; omega)
        (by simpa using hloud)
      have h1 : (if m2 + 1 = 0 then en else i + (m2 + 1) - 1) = i + m2 := by
        split <;> omega
      have h2 : (if m2 = 0 then i else i + 1 + m2 - 1) = i + m2 := by
        split <;> omega
      rw [h1]
      rw [h2] at hrec
      exact hrec

/-- Completeness of the run scan: every silent run of the remaining list
that is left-maximal and closed by a following loud sample appears in the
scan's output (with indices offset by the running index `i`). -/
lemma runsLoop_complete (dev : Int) (l : List Int) :
    ∀ (i st en : Nat) (checking : Bool) (a b : Nat),
      a ≤ b →
      (∀ t, a ≤ t → t ≤ b → isSilent dev (l.getD t 0) = true) →
      b + 1 < l.length →
      isSilent dev (l.getD (b+1) 0) = false →
      (a = 0 → checking = false) →
      (0 < a → isSilent dev (l.getD (a-1) 0) = false) →
      (i + a, i + b) ∈ runsLoop dev l i st en checking := by
  induction l with
  | nil => intro _ _ _ _ _ b _ _ hb _ _ _; simp at hb
  | cons x rest ih =>
    intro i st en checking a b hab hsil hb hloud h0 hmax
    have hblen : b < rest.length := by
      simp only [List.length_cons] at hb; omega
    cases a with
    | zero =>
      have hchk : checking = false := h0 rfl
      subst hchk
      have hx : isSilent dev x = true := by
        simpa using hsil 0 (le_refl _) (Nat.zero_le b)
      simp only [runsLoop, hx, if_true, Bool.not_false, ite_true]
      have hopen := runsLoop_open dev rest (i+1) i i b
        (fun t ht => by simpa using hsil (t+1) (Nat.zero_le _) (by omega))
        hblen
        (by simpa using hloud)
      have heq : (if b = 0 then i else i + 1 + b - 1) = i + b := by
        split <;> omega
      rw [heq] at hopen
      simpa using hopen
    | succ a2 =>
      obtain ⟨b2, rfl⟩ : ∃ b2, b = b2 + 1 := ⟨b - 1, by omega⟩
      have hmaxx : isSilent dev ((x :: rest).getD a2 0) = false :=
        hmax (Nat.succ_pos _)
      have hsil2 : ∀ t, a2 ≤ t → t ≤ b2 → isSilent dev (rest.getD t 0) = true :=
        fun t h1 h2 => by simpa using hsil (t+1) (by omega) (by omega)
      have hloud2 : isSilent dev (rest.getD (b2+1) 0) = false := by
        simpa using hloud
      have hb2 : b2 + 1 < rest.length := by omega
      by_cases hx : isSilent dev x = true
      · have ha2 : 0 < a2 := by
          rcases Nat.eq_zero_or_pos a2 with h | h
          · subst h
            rw [List.getD_cons_zero, hx] at hmaxx
            cases hmaxx
          · exact h
        have hmax2 : 0 < a2 → isSilent dev (rest.getD (a2-1) 0) = false := by
          intro _
          obtain ⟨k, rfl⟩ : ∃ k, a2 = k + 1 := ⟨a2 - 1, by omega⟩
          simpa using hmaxx
        have harith : ∀ (u : Nat), i + 1 + u = i + (u + 1) := by omega
        cases checking
        · simp only [runsLoop, hx, if_true, Bool.not_false, ite_true]
          have := ih (i+1) i i true a2 b2 (by omega) hsil2 hb2 hloud2
            (fun h => absurd h (by omega)) hmax2
          rw [harith a2, harith b2] at this
          exact this
        · simp only [runsLoop, hx, if_true, Bool.not_true, Bool.false_eq_true,
            if_false, ite_true, ite_false]
          have := ih (i+1) st i true a2 b2 (by omega) hsil2 hb2 hloud2
            (fun h => absurd h (by omega)) hmax2
          rw [harith a2, harith b2] at this
          exact this
      · have hx2 : isSilent dev x = false := by
          simpa using hx
        have hmax2 : 0 < a2 → isSilent dev (rest.getD (a2-1) 0) = false := by
          intro hpos
          obtain ⟨k, rfl⟩ : ∃ k, a2 = k + 1 := ⟨a2 - 1, by omega⟩
          simpa using hmaxx
        have harith : ∀ (u : Nat), i + 1 + u = i + (u + 1) := by omega
        have hrec := ih (i+1) st en false a2 b2 (by omega) hsil2 hb2 hloud2
          (fun _ => rfl) hmax2
        rw [harith a2, harith b2] at hrec
        cases checking
        · simp only [runsLoop, hx2, Bool.false_eq_true, if_false, ite_false]
          exact hrec
        · simp only [runsLoop, hx2, Bool.false_eq_true, if_false, ite_true]
          exact List.mem_cons_of_mem _ hrec

/-- A contiguous silent run of the channel, left-maximal and closed by a
following loud sample (spec 4.3: a run "closed by a following non-silent
sample"). -/
def IsClosedRun (dev : Int) (c : List Int) (s e : Nat) : Prop :=
  s ≤ e ∧ e + 1 < c.length ∧
    (∀ j, s ≤ j → j ≤ e → isSilent dev (c.getD j 0) = true) ∧
    (s = 0 ∨ isSilent dev (c.getD (s-1) 0) = false) ∧
    isSilent dev (c.getD (e+1) 0) = false

/-- C4 counterexample: with threshold 100 and minimum length 2 samples,
channel [200,0,0,200] contains the closed silent run (1,2) of length
2 - 1 + 1 = 2 ≥ 2, yet the detector output is empty: the code keeps a run
only when `end - start ≥ min`, not when `end - start + 1 ≥ min`. -/
theorem C4_counterexample :
    detectChannel 100 2 [200, 0, 0, 200] = [] ∧ 2 - 1 + 1 ≥ 2 := by decide

/-- C4 amended: for every channel and every contiguous silent run closed by
a following non-silent sample, the run (s,e) is kept in the detector's
output if and only if `e - s ≥ silence_min_length_samples` (equivalently
length `e - s + 1 ≥ silence_min_length_samples + 1`); runs with
`e - s < silence_min_length_samples` are discarded. -/
theorem C4_amended (dev : Int) (minLen : Nat) (c : List Int) (s e : Nat)
    (h : IsClosedRun dev c s e) :
    (s, e) ∈ detectChannel dev minLen c ↔ minLen ≤ e - s := by
  obtain ⟨hab, hlen, hsil, hmax, hloud⟩ := h
  constructor
  · intro hm
    unfold detectChannel at hm
    rw [detLoop_eq_filter] at hm
    simp only [List.nil_append, List.mem_filter, decide_eq_true_eq] at hm
    exact hm.2
  · intro hm
    unfold detectChannel
    rw [detLoop_eq_filter]
    simp only [List.nil_append, List.mem_filter, decide_eq_true_eq]
    refine ⟨?_, hm⟩
    have hcomp := runsLoop_complete dev c 0 0 0 false s e hab hsil hlen hloud
      (fun _ => rfl)
      (fun hs => by
        rcases hmax with h | h
        · omega
        · exact h)
    simpa using hcomp

/-- C4 amended, witness: the run (1,2) of [200,0,0,200] is kept with
minLen 1 since 2 - 1 ≥ 1. -/
theorem C4_amended_witness :
    (1, 2) ∈ detectChannel 100 1 [200, 0, 0, 200] :=
  (C4_amended 100 1 [200, 0, 0, 200] 1 2
    ⟨by decide, by decide,
      (by intro j h1 h2; interval_cases j <;> decide),
      Or.inr (by decide), by decide⟩).mpr (by decide)

/-! ## Claim C9: all channels fully silent -/

/-- C9: if every channel is fully silent (last-sound index 0 and the sample
at index 0 itself silent), the trimmer produces an empty surviving channel
set, and the save step writes no output file, instead deleting the input
exactly when `delete_empty` is configured. -/
theorem C9_all_silent (dev : Int) (deleteEmpty : Bool)
    (channels : List (List Int)) (_hne : channels ≠ [])
    (h : ∀ c ∈ channels, lastNonZero dev c = 0 ∧ isSilent dev (c.headD 0) = true) :
    trimChannels dev channels = [] ∧
      saveAction deleteEmpty (trimChannels dev channels) ≠ .writeOutput ∧
      (saveAction deleteEmpty (trimChannels dev channels) = .deleteInput ↔
        deleteEmpty = true) := by
  have hkept : keptChannels dev channels = [] := by
    rw [keptChannels_eq_filter]
    rw [List.filter_eq_nil_iff]
    intro c hc
    have := (h c hc).1
    simp [this]
  have htrim : trimChannels dev channels = [] := by
    unfold trimChannels
    rw [hkept]
    rfl
  refine ⟨htrim, ?_, ?_⟩
  · rw [htrim]
    cases deleteEmpty <;> simp [saveAction]
  · rw [htrim]
    cases deleteEmpty <;> simp [saveAction]

/-- C9 witness: one all-zero stereo pair with threshold 100. -/
theorem C9_all_silent_witness :
    trimChannels 100 [[0, 0], [0, 0]] = [] ∧
      saveAction true (trimChannels 100 [[0, 0], [0, 0]]) ≠ .writeOutput ∧
      (saveAction true (trimChannels 100 [[0, 0], [0, 0]]) = .deleteInput ↔
        true = true) :=
  C9_all_silent 100 true [[0, 0], [0, 0]] (by decide) (by decide)

/-! ## Claim C10: self-comparison in the merger -/

lemma mergeStep_below (r q : Nat × Nat) (h : q.2 < r.1) (hq : q.1 ≤ q.2) :
    mergeStep r q = (r, false) := by
  have h1 : ¬(q.1 ≥ r.1 ∧ q.1 ≤ r.2) := by omega
  have h2 : ¬(q.2 ≥ r.1 ∧ q.2 ≤ r.2) := by omega
  simp only [mergeStep, if_neg h1, if_neg h2, decide_eq_false h1,
    decide_eq_false h2, Bool.or_self]

lemma mergeStep_beyond (r q : Nat × Nat) (h : r.2 < q.1) (hq : q.1 ≤ q.2) :
    mergeStep r q = (r, false) := by
  have h1 : ¬(q.1 ≥ r.1 ∧ q.1 ≤ r.2) := by omega
  have h2 : ¬(q.2 ≥ r.1 ∧ q.2 ≤ r.2) := by omega
  simp only [mergeStep, if_neg h1, if_neg h2, decide_eq_false h1,
    decide_eq_false h2, Bool.or_self]

/-- Comparing the shrunken base range against the original base range it
came from leaves it unchanged (the flag may fire, but the assignments are
no-ops). -/
lemma mergeStep_self (r r2 : Nat × Nat) (h1 : r.1 ≤ r2.1) (_h2 : r2.1 ≤ r2.2)
    (h3 : r2.2 ≤ r.2) : (mergeStep r2 r).1 = r2 := by
  have hc1 : (mergeStep r2 r).1.1 = r2.1 := by
    simp only [mergeStep]
    split_ifs <;> omega
  have hc2 : (mergeStep r2 r).1.2 = r2.2 := by
    simp only [mergeStep]
    split_ifs <;> omega
  exact Prod.ext hc1 hc2

/-- Scanning a list whose ranges all start strictly after the current
range's end changes nothing. -/
lemma scanVec_beyond (l : List (Nat × Nat)) (r : Nat × Nat)
    (h : ∀ q ∈ l, r.2 < q.1 ∧ q.1 ≤ q.2) : scanVec r l = r := by
  induction l with
  | nil => rfl
  | cons q rest ih =>
    have hq := h q (List.mem_cons_self _ _)
    simp only [scanVec, mergeStep_beyond r q hq.1 hq.2, Bool.false_eq_true,
      if_false, ite_false]
    exact ih (fun p hp => h p (List.mem_cons_of_mem _ hp))

/-- Scanning the base channel's own list is a no-op: the ranges before the
origin range lie strictly below it, the origin range itself only re-asserts
the current bounds, and the ranges after it lie strictly above. -/
lemma scanVec_self (l : List (Nat × Nat)) (r r2 : Nat × Nat)
    (hpw : l.Pairwise (fun a b => a.2 < b.1)) (hwf : ∀ q ∈ l, q.1 ≤ q.2)
    (hr : r ∈ l) (h1 : r.1 ≤ r2.1) (h2 : r2.1 ≤ r2.2) (h3 : r2.2 ≤ r.2) :
    scanVec r2 l = r2 := by
  induction l with
  | nil => cases hr
  | cons q rest ih =>
    rcases List.mem_cons.mp hr with rfl | hr2
    · have hstep := mergeStep_self r r2 h1 h2 h3
      simp only [scanVec, hstep]
      split
      · rfl
      · apply scanVec_beyond
        intro p hp
        have hlt := (List.pairwise_cons.mp hpw).1 p hp
        exact ⟨by omega, hwf p (List.mem_cons_of_mem _ hp)⟩
    · have hqr : q.2 < r.1 := (List.pairwise_cons.mp hpw).1 r hr2
      have hqwf : q.1 ≤ q.2 := hwf q (List.mem_cons_self _ _)
      have hbelow : mergeStep r2 q = (r2, false) :=
        mergeStep_below r2 q (by omega) hqwf
      simp only [scanVec, hbelow, Bool.false_eq_true, if_false, ite_false]
      exact ih (List.pairwise_cons.mp hpw).2
        (fun p hp => hwf p (List.mem_cons_of_mem _ hp)) hr2

/-- C10: for families of per-channel lists that are ordered by start and
pairwise disjoint (as the detector produces), folding the base ranges
through all channel lists — the base channel's own list included — yields
exactly the same merged list as folding through the other channels' lists
only: matching a base range against its own channel's list never changes
its bounds. -/
theorem C10_self_comparison_noop (pre post : List (List (Nat × Nat)))
    (base : List (Nat × Nat))
    (hvalid : ∀ l ∈ pre ++ base :: post,
      l.Pairwise (fun a b => a.2 < b.1) ∧ ∀ q ∈ l, q.1 ≤ q.2) :
    base.map (mergeRange (pre ++ base :: post)) =
      base.map (mergeRange (pre ++ post)) := by
  apply List.map_congr_left
  intro r hr
  have hbase := hvalid base (by simp)
  have hrwf : r.1 ≤ r.2 := hbase.2 r hr
  unfold mergeRange
  rw [List.foldl_append, List.foldl_append, List.foldl_cons]
  have hshr := mergeRange_shrink pre r hrwf
  have hself : scanVec (List.foldl scanVec r pre) base = List.foldl scanVec r pre := by
    exact scanVec_self base r (List.foldl scanVec r pre) hbase.1 hbase.2 hr
      hshr.1 hshr.2.2 hshr.2.1
  rw [hself]

/-- C10 witness: one-range base with a second overlapping channel. -/
theorem C10_self_comparison_noop_witness :
    [(10,50)].map (mergeRange [[(10,50)], [(15,60)]]) =
      [(10,50)].map (mergeRange [[(15,60)]]) :=
  C10_self_comparison_noop [] [[(15,60)]] [(10,50)] (by decide)

/-! ## Claim C6: segment-length filter (try_saving_auto_cuts, lines 280-305) -/

/-- One iteration of the segment-length loop (lines 281-301), at loop index
`j`: the first range is dropped when its start is below the minimum; then
(`i >= ranges.len() - 2 || ranges.len() == 1`, Nat subtraction matching the
release-mode wrap combined with the `len == 1` disjunct) the trailing
segment check fires, with the `.iter().any(..)` dedupe; otherwise a too
small gap to the next range marks the NEXT index for removal. -/
def segStep (minLen chanLen len : Nat) (ranges : List (Nat × Nat))
    (acc : List Nat) (j : Nat) : List Nat :=
  if j = 0 ∧ (ranges.getD j (0,0)).1 < minLen then acc ++ [j]
  else if j + 2 ≥ len ∨ len = 1 then
    if chanLen - (ranges.getD j (0,0)).2 < minLen then
      if acc.any (fun e => e == j) then acc else acc ++ [j]
    else acc
  else
    if (ranges.getD (j+1) (0,0)).1 - (ranges.getD j (0,0)).2 < minLen then
      acc ++ [j+1]
    else acc

/-- `remove_idxs` as accumulated by the segment-length loop. -/
def segFilterIdxs (minLen chanLen : Nat) (ranges : List (Nat × Nat)) : List Nat :=
  (List.range ranges.length).foldl
    (segStep minLen chanLen ranges.length ranges) []

/-- Lines 303-305: remove the marked indices from highest to lowest. -/
def segFilter (minLen chanLen : Nat) (ranges : List (Nat × Nat)) : List (Nat × Nat) :=
  (segFilterIdxs minLen chanLen ranges).reverse.foldl
    (fun rs j => rs.eraseIdx j) ranges

/-- Which loop index `j` appends which index `i` to `remove_idxs`. -/
def AddedAt (minLen chanLen len : Nat) (ranges : List (Nat × Nat))
    (j i : Nat) : Prop :=
  (j = 0 ∧ (ranges.getD j (0,0)).1 < minLen ∧ i = 0) ∨
    (¬(j = 0 ∧ (ranges.getD j (0,0)).1 < minLen) ∧ (j + 2 ≥ len ∨ len = 1) ∧
      chanLen - (ranges.getD j (0,0)).2 < minLen ∧ i = j) ∨
    (¬(j = 0 ∧ (ranges.getD j (0,0)).1 < minLen) ∧ ¬(j + 2 ≥ len ∨ len = 1) ∧
      (ranges.getD (j+1) (0,0)).1 - (ranges.getD j (0,0)).2 < minLen ∧ i = j + 1)

lemma segStep_mem (minLen chanLen len : Nat) (ranges : List (Nat × Nat))
    (acc : List Nat) (j i : Nat) :
    i ∈ segStep minLen chanLen len ranges acc j ↔
      i ∈ acc ∨ AddedAt minLen chanLen len ranges j i := by
  unfold segStep AddedAt
  by_cases hfirst : j = 0 ∧ (ranges.getD j (0,0)).1 < minLen
  · rw [if_pos hfirst]
    simp only [List.mem_append, List.mem_singleton]
    constructor
    · rintro (h | rfl)
      · exact Or.inl h
      · exact Or.inr (Or.inl ⟨hfirst.1, hfirst.2, hfirst.1⟩)
    · rintro (h | h | h | h)
      · exact Or.inl h
      · exact Or.inr (by omega)
      · exact absurd hfirst h.1
      · exact absurd hfirst h.1
  · rw [if_neg hfirst]
    by_cases htrail : j + 2 ≥ len ∨ len = 1
    · rw [if_pos htrail]
      by_cases hclose : chanLen - (ranges.getD j (0,0)).2 < minLen
      · rw [if_pos hclose]
        by_cases hdup : acc.any (fun e => e == j) = true
        · rw [if_pos hdup]
          have hjmem : j ∈ acc := by
            obtain ⟨e, he, heq⟩ := List.any_eq_true.mp hdup
            have : e = j := by simpa using heq
            exact this ▸ he
          constructor
          · exact Or.inl
          · rintro (h | h | h | h)
            · exact h
            · exact absurd ⟨h.1, h.2.1⟩ hfirst
            · exact h.2.2.2 ▸ hjmem
            · exact absurd htrail h.2.1
        · rw [if_neg hdup]
          simp only [List.mem_append, List.mem_singleton]
          constructor
          · rintro (h | rfl)
            · exact Or.inl h
            · exact Or.inr (Or.inr (Or.inl ⟨hfirst, htrail, hclose, rfl⟩))
          · rintro (h | h | h | h)
            · exact Or.inl h
            · exact absurd ⟨h.1, h.2.1⟩ hfirst
            · exact Or.inr h.2.2.2
            · exact absurd htrail h.2.1
      · rw [if_neg hclose]
        constructor
        · exact Or.inl
        · rintro (h | h | h | h)
          · exact h
          · exact absurd ⟨h.1, h.2.1⟩ hfirst
          · exact absurd h.2.2.1 hclose
          · exact absurd htrail h.2.1
    · rw [if_neg htrail]
      by_cases hgap : (ranges.getD (j+1) (0,0)).1 - (ranges.getD j (0,0)).2 < minLen
      · rw [if_pos hgap]
        simp only [List.mem_append, List.mem_singleton]
        constructor
        · rintro (h | rfl)
          · exact Or.inl h
          · exact Or.inr (Or.inr (Or.inr ⟨hfirst, htrail, hgap, rfl⟩))
        · rintro (h | h | h | h)
          · exact Or.inl h
          · exact absurd ⟨h.1, h.2.1⟩ hfirst
          · exact absurd h.2.1 htrail
          · exact Or.inr h.2.2.2
      · rw [if_neg hgap]
        constructor
        · exact Or.inl
        · rintro (h | h | h | h)
          · exact h
          · exact absurd ⟨h.1, h.2.1⟩ hfirst
          · exact absurd h.2.1 htrail
          · exact absurd h.2.2.1 hgap

lemma foldl_segStep_mem (minLen chanLen len : Nat) (ranges : List (Nat × Nat))
    (idxs : List Nat) :
    ∀ (acc : List Nat) (i : Nat),
      (i ∈ idxs.foldl (segStep minLen chanLen len ranges) acc ↔
        i ∈ acc ∨ ∃ j ∈ idxs, AddedAt minLen chanLen len ranges j i) := by
  induction idxs with
  | nil => intro acc i; simp
  | cons j rest ih =>
    intro acc i
    rw [List.foldl_cons, ih, segStep_mem]
    simp only [List.mem_cons]
    constructor
    · rintro ((h | h) | ⟨k, hk, h⟩)
      · exact Or.inl h
      · exact Or.inr ⟨j, Or.inl rfl, h⟩
      · exact Or.inr ⟨k, Or.inr hk, h⟩
    · rintro (h | ⟨k, (rfl | hk), h⟩)
      · exact Or.inl (Or.inl h)
      · exact Or.inl (Or.inr h)
      · exact Or.inr ⟨k, hk, h⟩

/-- C6 counterexample: `ranges = [(60,70),(80,90)]`, channel length 100,
minimum segment length 50.  The claim predicts only index 1 is dropped
(trailing check on the last range; gap check drops the later of the pair;
the first range's start 60 is not below 50), but the code also drops index
0: the trailing-segment check fires for `i ≥ len - 2`, i.e. for the last
TWO ranges, so both ranges are removed. -/
theorem C6_counterexample :
    segFilterIdxs 50 100 [(60,70), (80,90)] = [0, 1] ∧
      segFilter 50 100 [(60,70), (80,90)] = [] ∧ ¬ (60 : Nat) < 50 := by decide

/-- C6 amended: an index `i` is marked for removal by the segment-length
filter iff some loop index `j < len` marks it, where: `j = 0` marks 0 when
the first range's start is below the minimum; otherwise `j` marks itself
via the trailing-segment check when `j + 2 ≥ len` or `len = 1` (the last
TWO ranges, or the sole range) and `total_length - end_j` is below the
minimum; otherwise (j at most len - 3) `j` marks `j + 1` when the gap
`start_{j+1} - end_j` is below the minimum — so a start below the minimum
causes dropping only for the first range, the trailing check applies to
the last two ranges rather than only the last, and interior gaps drop the
later range only for pairs ending at least two before the last range. -/
theorem C6_amended (minLen chanLen : Nat) (ranges : List (Nat × Nat)) (i : Nat) :
    i ∈ segFilterIdxs minLen chanLen ranges ↔
      ∃ j, j < ranges.length ∧
        ((j = 0 ∧ (ranges.getD j (0,0)).1 < minLen ∧ i = 0) ∨
          (¬(j = 0 ∧ (ranges.getD j (0,0)).1 < minLen) ∧
            (j + 2 ≥ ranges.length ∨ ranges.length = 1) ∧
            chanLen - (ranges.getD j (0,0)).2 < minLen ∧ i = j) ∨
          (¬(j = 0 ∧ (ranges.getD j (0,0)).1 < minLen) ∧
            ¬(j + 2 ≥ ranges.length ∨ ranges.length = 1) ∧
            (ranges.getD (j+1) (0,0)).1 - (ranges.getD j (0,0)).2 < minLen ∧
            i = j + 1)) := by
  unfold segFilterIdxs
  rw [foldl_segStep_mem]
  simp only [List.not_mem_nil, false_or, List.mem_range]
  unfold AddedAt
  constructor
  · rintro ⟨j, hj, h⟩
    exact ⟨j, hj, h⟩
  · rintro ⟨j, hj, h⟩
    exact ⟨j, hj, h⟩

/-! ## Claim C8: slicing (try_saving_auto_cuts, lines 310-336) -/

/-- Rust `channel[start..=end].to_vec()`: the inclusive slice. -/
def sliceAt (c : List Int) (s e : Nat) : List Int :=
  (c.drop s).take (e + 1 - s)

/-- One iteration of the slicing loop (lines 313-325): cut every channel
from the previous cut point `acc.2` through the current range's start
inclusive, and set the next cut point to the current range's end. -/
def sliceStep (channels : List (List Int))
    (acc : List (List (List Int)) × Nat) (r : Nat × Nat) :
    List (List (List Int)) × Nat :=
  (acc.1 ++ [channels.map (fun c => sliceAt c acc.2 r.1)], r.2)

/-- Lines 310-336: the segments produced from the surviving ranges, with
the final segment running from the last cut point to
`new_channels[0].len() - 1` inclusive. -/
def sliceSegments (channels : List (List Int)) (ranges : List (Nat × Nat)) :
    List (List (List Int)) :=
  let p := ranges.foldl (sliceStep channels) ([], 0)
  p.1 ++ [channels.map (fun c => sliceAt c p.2 ((channels.headD []).length - 1))]

/-- Recursive form of the slicing loop, starting from cut point `s0`. -/
def sliceGo (channels : List (List Int)) (s0 : Nat) :
    List (Nat × Nat) → List (List (List Int)) × Nat
  | [] => ([], s0)
  | r :: rest =>
    let q := sliceGo channels r.2 rest
    (channels.map (fun c => sliceAt c s0 r.1) :: q.1, q.2)

lemma foldl_sliceStep_eq_sliceGo (channels : List (List Int)) :
    ∀ (ranges : List (Nat × Nat)) (acc : List (List (List Int))) (s0 : Nat),
      ranges.foldl (sliceStep channels) (acc, s0) =
        (acc ++ (sliceGo channels s0 ranges).1, (sliceGo channels s0 ranges).2) := by
  intro ranges
  induction ranges with
  | nil => intro acc s0; simp [sliceGo]
  | cons r rest ih =>
    intro acc s0
    rw [List.foldl_cons]
    show List.foldl (sliceStep channels)
      (acc ++ [channels.map (fun c => sliceAt c s0 r.1)], r.2) rest = _
    rw [ih]
    simp [sliceGo]

lemma sliceGo_fst_length (channels : List (List Int)) :
    ∀ (ranges : List (Nat × Nat)) (s0 : Nat),
      (sliceGo channels s0 ranges).1.length = ranges.length := by
  intro ranges
  induction ranges with
  | nil => intro s0; rfl
  | cons r rest ih => intro s0; simp [sliceGo, ih]

lemma sliceGo_snd (channels : List (List Int)) :
    ∀ (ranges : List (Nat × Nat)) (s0 : Nat),
      (sliceGo channels s0 ranges).2 =
        if ranges.length = 0 then s0
        else (ranges.getD (ranges.length - 1) (0,0)).2 := by
  intro ranges
  induction ranges with
  | nil => intro s0; rfl
  | cons r rest ih =>
    intro s0
    have hstep : (sliceGo channels s0 (r :: rest)).2 = (sliceGo channels r.2 rest).2 := rfl
    rw [hstep, ih r.2]
    cases rest with
    | nil => simp
    | cons r2 rest2 => simp

lemma sliceGo_getD (channels : List (List Int)) :
    ∀ (ranges : List (Nat × Nat)) (s0 i : Nat), i < ranges.length →
      (sliceGo channels s0 ranges).1.getD i [] =
        channels.map (fun ch => sliceAt ch
          (if i = 0 then s0 else (ranges.getD (i-1) (0,0)).2)
          ((ranges.getD i (0,0)).1)) := by
  intro ranges
  induction ranges with
  | nil => intro s0 i hi; simp at hi
  | cons r rest ih =>
    intro s0 i hi
    cases i with
    | zero => simp [sliceGo]
    | succ k =>
      simp only [sliceGo, List.getD_cons_succ]
      rw [ih r.2 k (by simpa using hi)]
      cases k with
      | zero => simp
      | succ m => simp

/-- C8: slicing a 1000-sample single channel at the sole surviving range
(400,450) yields exactly the two segments with inclusive sample-index
bounds [0..400] (the first 401 samples) and [450..999] (the samples from
index 450 on); in general the slicer produces ranges.length + 1 segments,
segment i running from the previous cut point (0 for the first segment,
the end of range i-1 otherwise) through range i's start inclusive, and the
final segment running from the last range's end through the last sample
index. -/
theorem C8_slicing (c : List Int) (hc : c.length = 1000) :
    sliceSegments [c] [(400,450)] = [[c.take 401], [c.drop 450]] ∧
      ∀ (channels : List (List Int)) (ranges : List (Nat × Nat)),
        (sliceSegments channels ranges).length = ranges.length + 1 ∧
          ∀ i, i ≤ ranges.length →
            (sliceSegments channels ranges).getD i [] =
              channels.map (fun ch => sliceAt ch
                (if i = 0 then 0 else (ranges.getD (i-1) (0,0)).2)
                (if i = ranges.length then (channels.headD []).length - 1
                 else (ranges.getD i (0,0)).1)) := by
  constructor
  · have h1 : sliceAt c 0 400 = c.take 401 := by
      simp [sliceAt]
    have h2 : sliceAt c 450 (c.length - 1) = c.drop 450 := by
      unfold sliceAt
      rw [hc]
      apply List.take_of_length_le
      rw [List.length_drop, hc]
    simp only [sliceSegments, List.foldl_cons, List.foldl_nil, sliceStep,
      List.nil_append, List.map_cons, List.map_nil, List.headD_cons]
    rw [h1, h2]
    rfl
  · intro channels ranges
    have hfold := foldl_sliceStep_eq_sliceGo channels ranges [] 0
    have hlen := sliceGo_fst_length channels ranges 0
    constructor
    · simp only [sliceSegments, hfold, List.nil_append]
      simp [hlen]
    · intro i hi
      simp only [sliceSegments, hfold, List.nil_append]
      rcases Nat.lt_or_ge i ranges.length with hlt | hge
      · rw [List.getD_append _ _ _ _ (by omega)]
        rw [sliceGo_getD channels ranges 0 i hlt]
        have hne : ¬ i = ranges.length := by omega
        simp only [if_neg hne]
      · have hieq : i = ranges.length := by omega
        subst hieq
        rw [List.getD_append_right _ _ _ _ (by omega)]
        rw [hlen]
        simp only [Nat.sub_self, List.getD_cons_zero]
        rw [sliceGo_snd channels ranges 0]
        simp

/-- C8 witness at a concrete 1000-sample channel. -/
theorem C8_slicing_witness :
    sliceSegments [List.replicate 1000 (0 : Int)] [(400,450)] =
        [[(List.replicate 1000 (0 : Int)).take 401],
         [(List.replicate 1000 (0 : Int)).drop 450]] ∧
      ∀ (channels : List (List Int)) (ranges : List (Nat × Nat)),
        (sliceSegments channels ranges).length = ranges.length + 1 ∧
          ∀ i, i ≤ ranges.length →
            (sliceSegments channels ranges).getD i [] =
              channels.map (fun ch => sliceAt ch
                (if i = 0 then 0 else (ranges.getD (i-1) (0,0)).2)
                (if i = ranges.length then (channels.headD []).length - 1
                 else (ranges.getD i (0,0)).1)) :=
  C8_slicing (List.replicate 1000 (0 : Int)) (by rw [List.length_replicate])

/-! ## Claim C7: de-interleave / re-interleave round trip -/

/-- One channel of the de-interleaver (process_wav, lines 85-95): the
samples at flat indices `i` with `i % n == c`, in order. -/
def chanOf (n c : Nat) (samples : List Int) : List Int :=
  (samples.enum.filter (fun p => p.1 % n == c)).map Prod.snd

/-- Lines 82-95: split the flat sample list into `n` channels. -/
def deinterleave (n : Nat) (samples : List Int) : List (List Int) :=
  (List.range n).map (fun c => chanOf n c samples)

/-- The `write_buf` nested loop of save_new_wav (lines 381-387): for each
sample position below `samples_per_channel = channels[0].len()`, push that
position's sample of every channel in channel order. -/
def interleave (channels : List (List Int)) : List Int :=
  ((List.range ((channels.headD []).length)).map
    (fun s => channels.map (fun ch => ch.getD s 0))).flatten

/-- `chanOf` generalised over the starting flat index of the enumeration. -/
def chanFrom (n c m : Nat) (samples : List Int) : List Int :=
  ((samples.enumFrom m).filter (fun p => p.1 % n == c)).map Prod.snd

lemma chanOf_eq_chanFrom (n c : Nat) (samples : List Int) :
    chanOf n c samples = chanFrom n c 0 samples := rfl

lemma chanFrom_cons (n c m : Nat) (x : Int) (rest : List Int) :
    chanFrom n c m (x :: rest) =
      (if m % n == c then [x] else []) ++ chanFrom n c (m+1) rest := by
  by_cases h : (m % n == c) = true
  · simp [chanFrom, List.filter_cons, h]
  · simp only [Bool.not_eq_true] at h
    simp [chanFrom, List.filter_cons, h]

lemma chanFrom_shift (n c : Nat) (l : List Int) :
    ∀ m, chanFrom n c (m + n) l = chanFrom n c m l := by
  induction l with
  | nil => intro m; rfl
  | cons x rest ih =>
    intro m
    rw [chanFrom_cons, chanFrom_cons, Nat.add_mod_right]
    rw [show m + n + 1 = (m + 1) + n from by omega, ih (m+1)]

lemma chanFrom_miss (n c : Nat) : ∀ (chunk : List Int) (m : Nat),
    m + chunk.length ≤ n → c < m → chanFrom n c m chunk = [] := by
  intro chunk
  induction chunk with
  | nil => intro m _ _; rfl
  | cons x rest ih =>
    intro m hlen hc
    rw [chanFrom_cons]
    have hm : m % n = m := Nat.mod_eq_of_lt (by simp at hlen; omega)
    have hne : (m % n == c) = false := by
      rw [hm]
      exact beq_eq_false_iff_ne.mpr (by omega)
    rw [hne]
    simp only [Bool.false_eq_true, if_false, List.nil_append]
    exact ih (m+1) (by simp at hlen; omega) (by omega)

lemma chanFrom_hit (n c : Nat) : ∀ (chunk : List Int) (m : Nat),
    m + chunk.length ≤ n → m ≤ c → c < m + chunk.length →
    chanFrom n c m chunk = [chunk.getD (c - m) 0] := by
  intro chunk
  induction chunk with
  | nil => intro m _ h2 h3; simp at h3; omega
  | cons x rest ih =>
    intro m hlen hle hlt
    rw [chanFrom_cons]
    have hm : m % n = m := Nat.mod_eq_of_lt (by simp at hlen; omega)
    by_cases hc : c = m
    · have heq : (m % n == c) = true := by rw [hm]; exact beq_iff_eq.mpr hc.symm
      rw [heq]
      have hmiss : chanFrom n c (m+1) rest = [] :=
        chanFrom_miss n c rest (m+1) (by simp at hlen; omega) (by omega)
      rw [hmiss]
      subst hc
      simp
    · have hne : (m % n == c) = false := by
        rw [hm]
        exact beq_eq_false_iff_ne.mpr (by omega)
      rw [hne]
      simp only [Bool.false_eq_true, if_false, List.nil_append]
      rw [ih (m+1) (by simp at hlen; omega) (by omega) (by simp at hlt; omega)]
      have hidx : c - m = (c - (m + 1)) + 1 := by omega
      rw [hidx, List.getD_cons_succ]

/-- Splitting off one full frame of `n` samples prepends one sample to the
channel `c` and leaves the remainder de-interleaved as before. -/
lemma chanFrom_split (n c : Nat) (hc : c < n) (chunk rest : List Int)
    (hlen : chunk.length = n) :
    chanFrom n c 0 (chunk ++ rest) = chunk.getD c 0 :: chanFrom n c 0 rest := by
  have h1 : chanFrom n c 0 chunk = [chunk.getD c 0] :=
    chanFrom_hit n c chunk 0 (by omega) (Nat.zero_le c) (by omega)
  have h2 : chanFrom n c (0 + chunk.length) rest = chanFrom n c 0 rest := by
    rw [hlen, Nat.zero_add]
    have := chanFrom_shift n c rest 0
    rwa [Nat.zero_add] at this
  calc chanFrom n c 0 (chunk ++ rest)
      = chanFrom n c 0 chunk ++ chanFrom n c (0 + chunk.length) rest := by
        unfold chanFrom
        rw [List.enumFrom_append, List.filter_append, List.map_append]
    _ = [chunk.getD c 0] ++ chanFrom n c 0 rest := by rw [h1, h2]
    _ = chunk.getD c 0 :: chanFrom n c 0 rest := rfl

lemma range_map_getD {α : Type} (l : List α) (d : α) :
    (List.range l.length).map (fun i => l.getD i d) = l := by
  induction l with
  | nil => simp
  | cons x rest ih =>
    rw [List.length_cons, List.range_succ_eq_map, List.map_cons, List.map_map]
    have hcomp : ((fun i => (x :: rest).getD i d) ∘ Nat.succ) =
        (fun i => rest.getD i d) := by
      funext i
      simp
    rw [hcomp, ih]
    rfl

lemma deinterleave_key (n : Nat) (hn : 1 ≤ n) :
    ∀ (k : Nat) (samples : List Int), samples.length = k * n →
      interleave (deinterleave n samples) = samples := by
  intro k
  induction k with
  | zero =>
    intro samples h
    obtain rfl : samples = [] := List.length_eq_zero.mp (by omega)
    obtain ⟨m, rfl⟩ : ∃ m, n = m + 1 := ⟨n - 1, by omega⟩
    simp [interleave, deinterleave, chanOf, List.range_succ_eq_map]
  | succ k ih =>
    intro samples hlen
    rw [Nat.succ_mul] at hlen
    have hchunklen : (samples.take n).length = n := by
      rw [List.length_take]
      omega
    have hrestlen : (samples.drop n).length = k * n := by
      rw [List.length_drop]
      omega
    have hsplit : samples = samples.take n ++ samples.drop n :=
      (List.take_append_drop n samples).symm
    have hchans : deinterleave n samples =
        (List.range n).map
          (fun c => (samples.take n).getD c 0 :: chanOf n c (samples.drop n)) := by
      unfold deinterleave
      apply List.map_congr_left
      intro c hcmem
      rw [List.mem_range] at hcmem
      rw [chanOf_eq_chanFrom]
      conv_lhs => rw [hsplit]
      rw [chanFrom_split n c hcmem _ _ hchunklen]
      rw [chanOf_eq_chanFrom]
    obtain ⟨m, hm⟩ : ∃ m, n = m + 1 := ⟨n - 1, by omega⟩
    have hhead : ∀ (f : Nat → List Int), (((List.range n).map f).headD []) = f 0 := by
      intro f
      rw [hm, List.range_succ_eq_map]
      rfl
    rw [hchans]
    unfold interleave
    rw [hhead]
    simp only [List.length_cons]
    rw [List.range_succ_eq_map]
    simp only [List.map_cons, List.map_map, List.flatten_cons]
    have hfirst : (List.range n).map
        ((fun ch => ch.getD 0 0) ∘
          (fun c => (samples.take n).getD c 0 :: chanOf n c (samples.drop n))) =
        samples.take n := by
      have : ((fun ch => ch.getD 0 0) ∘
          (fun c => (samples.take n).getD c 0 :: chanOf n c (samples.drop n))) =
          (fun c => (samples.take n).getD c 0) := by
        funext c
        simp [Function.comp]
      rw [this]
      have h0 := range_map_getD (samples.take n) (0 : Int)
      rw [hchunklen] at h0
      exact h0
    have hrest : ((List.range (chanOf n 0 (samples.drop n)).length).map
        ((fun s => (List.range n).map
            ((fun ch => ch.getD s 0) ∘
              (fun c => (samples.take n).getD c 0 :: chanOf n c (samples.drop n)))) ∘
          Nat.succ)).flatten = samples.drop n := by
      have hstep : ((fun s => (List.range n).map
          ((fun ch => ch.getD s 0) ∘
            (fun c => (samples.take n).getD c 0 :: chanOf n c (samples.drop n)))) ∘
            Nat.succ) =
          (fun s => (deinterleave n (samples.drop n)).map (fun ch => ch.getD s 0)) := by
        funext s
        unfold deinterleave
        rw [List.map_map]
        apply List.map_congr_left
        intro c _
        simp [Function.comp]
      rw [hstep]
      have hih := ih (samples.drop n) hrestlen
      unfold interleave at hih
      have hhead2 : ((deinterleave n (samples.drop n)).headD []) =
          chanOf n 0 (samples.drop n) := by
        unfold deinterleave
        exact hhead (fun c => chanOf n c (samples.drop n))
      rw [hhead2] at hih
      exact hih
    rw [hfirst, hrest]
    exact hsplit.symm

/-- C7: for every channel count n ≥ 1 and every flat sample sequence whose
length is a multiple of n, de-interleaving into n channels (channel c
receives the samples at flat indices congruent to c mod n, in order) and
re-interleaving reproduces the original flat sequence exactly. -/
theorem C7_roundtrip (n : Nat) (samples : List Int) (hn : 1 ≤ n)
    (hmul : n ∣ samples.length) :
    interleave (deinterleave n samples) = samples := by
  obtain ⟨k, hk⟩ := hmul
  exact deinterleave_key n hn k samples (by rw [hk, Nat.mul_comm])

/-- C7 witness: two channels, four samples. -/
theorem C7_roundtrip_witness :
    interleave (deinterleave 2 [1, 2, 3, 4]) = [1, 2, 3, 4] :=
  C7_roundtrip 2 [1, 2, 3, 4] (by decide) (by decide)

end WavOpt
